import Mathlib

/-!
Verification of the TOTP manager (`totp_manager.py`).

The repository stores one Base32 TOTP secret per email in a sqlite table
with a UNIQUE constraint on the email, and generates codes with
`pyotp.TOTP(secret).now()`.  We shallowly embed:

* the TOTP pipeline executed by `pyotp` (Base32 decode as in CPython's
  `base64.b32decode` with the missing-padding fix-up `pyotp` applies,
  HMAC-SHA1, dynamic truncation, 6-digit zero-padded formatting);
* the store operations `add_secret`, `update_secret`, `delete_secret`,
  `search_emails` (SQL `LIKE '%term%' ORDER BY email`, ASCII
  case-insensitive) over a list of `(email, secret)` rows;
* the `get` command dispatch of `main`.

Bytes are `Nat` values `< 256`; 32-bit words are `Nat` reduced `% 2^32`.
Fallible operations return `Option`; a raised Python exception is `none`.
-/

set_option maxRecDepth 10000

namespace TotpManager

/-- ASCII upper-casing of one character (`str.upper` restricted to the
ASCII range, which is all the Base32 alphabet cares about). -/
def asciiUpper (c : Char) : Char :=
  if 'a' ≤ c ∧ c ≤ 'z' then Char.ofNat (c.toNat - 32) else c

/-- Big-endian 4-byte serialization of a 32-bit word. -/
def be4 (w : Nat) : List Nat :=
  [w / 16777216 % 256, w / 65536 % 256, w / 256 % 256, w % 256]

/-- Big-endian 8-byte serialization (used for the SHA-1 length field,
which is the bit length reduced modulo `2^64`). -/
def be8 (n : Nat) : List Nat :=
  [n / 72057594037927936 % 256, n / 281474976710656 % 256,
   n / 1099511627776 % 256, n / 4294967296 % 256,
   n / 16777216 % 256, n / 65536 % 256, n / 256 % 256, n % 256]

/-- Minimal big-endian byte string of a natural number, fuelled so that
the kernel can evaluate it; the fuel bounds the iterations of the loop
in `pyotp.OTP.int_to_bytestring` and is never exhausted when it starts
at `n` itself. -/
def natBytesBEAux : Nat → Nat → List Nat
  | _, 0 => []
  | 0, _ + 1 => []
  | fuel + 1, n + 1 => natBytesBEAux fuel ((n + 1) / 256) ++ [(n + 1) % 256]

/-- Minimal big-endian byte string of a natural number (`[]` for 0),
as built by the loop in `pyotp.OTP.int_to_bytestring`. -/
def natBytesBE (n : Nat) : List Nat := natBytesBEAux n n

/-- `pyotp.OTP.int_to_bytestring(i, padding=8)`: minimal big-endian
bytes, left-padded with zero bytes to at least 8 bytes. -/
def intToBytestring (i : Nat) : List Nat :=
  let r := natBytesBE i
  List.replicate (8 - r.length) 0 ++ r

/-- Chunk splitting with explicit fuel (one unit per produced chunk;
never exhausted when the fuel starts at the list length). -/
def chunksOfAux (n : Nat) : Nat → List α → List (List α)
  | _, [] => []
  | 0, _ :: _ => []
  | fuel + 1, x :: xs => (x :: xs.take n) :: chunksOfAux n fuel (xs.drop n)

/-- Split a list into consecutive chunks of `n + 1` elements (the last
chunk may be shorter). -/
def chunksOf (n : Nat) (l : List α) : List (List α) :=
  chunksOfAux n l.length l

/-- 32-bit left rotation. -/
def rotl32 (n x : Nat) : Nat :=
  ((x <<< n) ||| (x >>> (32 - n))) % 4294967296

/-- SHA-1 message padding: append `0x80`, zero bytes up to 56 mod 64,
then the bit length as 8 big-endian bytes. -/
def sha1Pad (msg : List Nat) : List Nat :=
  msg ++ [128] ++ List.replicate ((119 - msg.length % 64) % 64) 0
      ++ be8 (8 * msg.length)

/-- Combine bytes into big-endian 32-bit words. -/
def toWords : List Nat → List Nat
  | b0 :: b1 :: b2 :: b3 :: rest =>
      (((b0 * 256 + b1) * 256 + b2) * 256 + b3) :: toWords rest
  | _ => []

/-- The SHA-1 round function. -/
def sha1f (t b c d : Nat) : Nat :=
  if t < 20 then (b &&& c) ||| ((b ^^^ 4294967295) &&& d)
  else if t < 40 then b ^^^ c ^^^ d
  else if t < 60 then (b &&& c) ||| (b &&& d) ||| (c &&& d)
  else b ^^^ c ^^^ d

/-- The SHA-1 round constants. -/
def sha1K (t : Nat) : Nat :=
  if t < 20 then 1518500249
  else if t < 40 then 1859775393
  else if t < 60 then 2400959708
  else 3395469782

/-- Extend the message schedule; the accumulator holds the words newest
first, so `w[t-3]` is at index 2, …, `w[t-16]` at index 15. -/
def extendSched : Nat → List Nat → List Nat
  | 0, acc => acc
  | n + 1, acc =>
      let w := rotl32 1 ((acc.getD 2 0) ^^^ (acc.getD 7 0) ^^^
                         (acc.getD 13 0) ^^^ (acc.getD 15 0))
      extendSched n (w :: acc)

/-- The 80-word SHA-1 message schedule of one 16-word block. -/
def sha1Sched (ws : List Nat) : List Nat :=
  (extendSched 64 ws.reverse).reverse

/-- One SHA-1 round on the five-word state. -/
def sha1Step (st : Nat × Nat × Nat × Nat × Nat) (tw : Nat × Nat) :
    Nat × Nat × Nat × Nat × Nat :=
  let temp := (rotl32 5 st.1 + sha1f tw.1 st.2.1 st.2.2.1 st.2.2.2.1 +
               st.2.2.2.2 + sha1K tw.1 + tw.2) % 4294967296
  (temp, st.1, rotl32 30 st.2.1, st.2.2.1, st.2.2.2.1)

/-- Process one 64-byte block, updating the chaining state. -/
def processBlock (h : Nat × Nat × Nat × Nat × Nat) (block : List Nat) :
    Nat × Nat × Nat × Nat × Nat :=
  let st := (List.zip (List.range 80) (sha1Sched (toWords block))).foldl
      sha1Step h
  ((h.1 + st.1) % 4294967296, (h.2.1 + st.2.1) % 4294967296,
   (h.2.2.1 + st.2.2.1) % 4294967296, (h.2.2.2.1 + st.2.2.2.1) % 4294967296,
   (h.2.2.2.2 + st.2.2.2.2) % 4294967296)

/-- SHA-1 of a byte string, as a list of 20 bytes. -/
def sha1 (msg : List Nat) : List Nat :=
  let h := (chunksOf 63 (sha1Pad msg)).foldl processBlock
      (1732584193, 4023233417, 2562383102, 271733878, 3285377520)
  be4 h.1 ++ be4 h.2.1 ++ be4 h.2.2.1 ++ be4 h.2.2.2.1 ++ be4 h.2.2.2.2

/-- HMAC-SHA1 (`hmac.new(key, msg, hashlib.sha1)`): keys longer than the
64-byte block are hashed first, the key is zero-padded to 64 bytes, and
the digest is `H((k ^ opad) ++ H((k ^ ipad) ++ msg))`. -/
def hmacSha1 (key msg : List Nat) : List Nat :=
  let k0 := if 64 < key.length then sha1 key else key
  let k := k0 ++ List.replicate (64 - k0.length) 0
  sha1 ((k.map (fun b => b ^^^ 92)) ++ sha1 ((k.map (fun b => b ^^^ 54)) ++ msg))

/-! ### Base32 decoding (`base64.b32decode(secret, casefold=True)`) -/

/-- The value of one Base32 alphabet character (`_b32rev`); `none` for a
character outside `A–Z2–7`. -/
def b32val (c : Char) : Option Nat :=
  if 'A' ≤ c ∧ c ≤ 'Z' then some (c.toNat - 65)
  else if '2' ≤ c ∧ c ≤ '7' then some (c.toNat - 50 + 26)
  else none

/-- Strip trailing `=` padding characters. -/
def stripPad (s : List Char) : List Char :=
  (s.reverse.dropWhile (fun c => c = '=')).reverse

/-- Accumulate the 5-bit values of one quantum of up to 8 characters. -/
def decodeQuantum (q : List Char) : Option Nat :=
  q.foldl (fun acc c =>
    match acc, b32val c with
    | some a, some v => some (a * 32 + v)
    | _, _ => none) (some 0)

/-- Big-endian 5-byte serialization (`acc.to_bytes(5, "big")`). -/
def natToBytes5 (a : Nat) : List Nat :=
  [a / 4294967296 % 256, a / 16777216 % 256, a / 65536 % 256,
   a / 256 % 256, a % 256]

/-- Decode the stripped quanta, returning the byte string and the
accumulator of the last quantum (needed for the partial-quantum
fix-up); `(_, 0)` when there are no quanta. -/
def b32core : List (List Char) → Option (List Nat × Nat)
  | [] => some ([], 0)
  | [q] =>
      match decodeQuantum q with
      | some a => some (natToBytes5 a, a)
      | none => none
  | q :: rest =>
      match decodeQuantum q, b32core rest with
      | some a, some pr => some (natToBytes5 a ++ pr.1, pr.2)
      | _, _ => none

/-- CPython's `base64.b32decode(s, casefold=True)`: the length must be a
multiple of 8; trailing `=` are stripped and counted; quanta are decoded
5 bits per character into 5-byte groups; the final group is cut down to
`(43 - 5*padchars) / 8` bytes.  `none` models `binascii.Error` (and the
`ascii` codec error for non-ASCII input). -/
def b32decode (s0 : List Char) : Option (List Nat) :=
  if s0.any (fun c => 128 ≤ c.toNat) then none
  else
    let s := s0.map asciiUpper
    if s.length % 8 ≠ 0 then none
    else
      let stripped := stripPad s
      let padchars := s.length - stripped.length
      match b32core (chunksOf 7 stripped) with
      | none => none
      | some pr =>
          if padchars = 0 ∨ padchars = 1 ∨ padchars = 3 ∨
             padchars = 4 ∨ padchars = 6 then
            if padchars ≠ 0 ∧ pr.1 ≠ [] then
              let last := natToBytes5 ((pr.2 <<< (5 * padchars)) % 1099511627776)
              some (pr.1.take (pr.1.length - 5) ++
                    last.take ((43 - 5 * padchars) / 8))
            else some pr.1
          else none

/-- `pyotp.OTP.byte_secret`: right-pad the stored secret with `=` to a
multiple of 8 characters, then Base32-decode it. -/
def byteSecret (secret : String) : Option (List Nat) :=
  let d := secret.data
  let padded := if d.length % 8 = 0 then d
                else d ++ List.replicate (8 - d.length % 8) '='
  b32decode padded

/-! ### Code generation (`pyotp.OTP.generate_otp`, `TOTP.now`) -/

/-- Little helper: the decimal digit character of `d < 10`. -/
def digitChar (d : Nat) : Char := Char.ofNat (48 + d)

/-- Decimal representation with explicit fuel (one unit per extra
digit; never exhausted when the fuel starts at `n`). -/
def decCharsAux : Nat → Nat → List Char
  | 0, n => [digitChar (n % 10)]
  | fuel + 1, n =>
      if n < 10 then [digitChar n]
      else decCharsAux fuel (n / 10) ++ [digitChar (n % 10)]

/-- Decimal representation of a natural number (`str(n)`). -/
def decChars (n : Nat) : List Char := decCharsAux n n

/-- Left-pad a character list with `'0'` to 6 characters
(`str_code.zfill(6)`). -/
def zfill6 (l : List Char) : List Char :=
  List.replicate (6 - l.length) '0' ++ l

/-- `pyotp.OTP.generate_otp(counter)` for 6 digits and SHA-1: HMAC the
8-byte big-endian counter, dynamically truncate, reduce modulo `10^6`
and zero-pad to 6 characters. -/
def generateOtp (key : List Nat) (counter : Nat) : String :=
  let d := hmacSha1 key (intToBytestring counter)
  let offset := d.getD 19 0 &&& 15
  let code := ((d.getD offset 0 &&& 127) <<< 24) |||
              ((d.getD (offset + 1) 0 &&& 255) <<< 16) |||
              ((d.getD (offset + 2) 0 &&& 255) <<< 8) |||
              (d.getD (offset + 3) 0 &&& 255)
  String.mk (zfill6 (decChars (code % 1000000)))

/-- `TOTPManager.get_totp(secret)` at Unix time `t`:
`pyotp.TOTP(secret).now()` computes the time-step `int(t / 30)` and
generates a code from the decoded secret; `none` models the exception
raised when the stored secret does not Base32-decode. -/
def getTotp (secret : String) (t : Nat) : Option String :=
  match byteSecret secret with
  | none => none
  | some key => some (generateOtp key (t / 30))

/-! ### The secret store

The sqlite table keyed by a UNIQUE email is modelled as a list of
`(email, secret)` rows; row ids and timestamps carry no information the
claims mention.  `pyotp.TOTP(s).now()` raising is exactly
`byteSecret s = none` (see `getTotp`). -/

/-- A store is the list of `(email, secret)` rows. -/
abbrev Store := List (String × String)

/-- The normalization both `add_secret` and `update_secret` perform:
`secret.replace(' ', '').upper()` — every space (U+0020) character is
removed, then the result is upper-cased. -/
def normalizeSecret (s : String) : String :=
  String.mk ((s.data.filter (fun c => c ≠ ' ')).map asciiUpper)

/-- Whether `pyotp.TOTP(s).now()` succeeds: the secret (padded to a
multiple of 8 characters) must Base32-decode. -/
def validSecret (s : String) : Bool :=
  (byteSecret s).isSome

/-- Outcome of `add_secret`. -/
inductive AddResult where
  | ok
  | alreadyExists
  | invalidFormat
  deriving DecidableEq, Repr

/-- `TOTPManager.add_secret(email, secret)`: normalize, test the secret
by generating a code from it, then INSERT; the UNIQUE constraint turns
an existing email into `sqlite3.IntegrityError`. -/
def addSecret (store : Store) (email secret : String) : AddResult × Store :=
  let s := normalizeSecret secret
  if validSecret s then
    if store.any (fun e => e.1 == email) then (.alreadyExists, store)
    else (.ok, store ++ [(email, s)])
  else (.invalidFormat, store)

/-- Outcome of `update_secret`. -/
inductive UpdateResult where
  | ok
  | notFound
  | invalidFormat
  deriving DecidableEq, Repr

/-- `TOTPManager.update_secret(email, secret)`: normalize, test the
secret, then UPDATE the row for `email`; `rowcount == 0` reports
not-found. -/
def updateSecret (store : Store) (email secret : String) :
    UpdateResult × Store :=
  let s := normalizeSecret secret
  if validSecret s then
    if store.any (fun e => e.1 == email) then
      (.ok, store.map (fun e => if e.1 == email then (e.1, s) else e))
    else (.notFound, store)
  else (.invalidFormat, store)

/-- `TOTPManager.delete_secret(email)`: DELETE the rows for `email`;
`rowcount == 0` reports not-found (`false`). -/
def deleteSecret (store : Store) (email : String) : Bool × Store :=
  if store.any (fun e => e.1 == email) then
    (true, store.filter (fun e => !(e.1 == email)))
  else (false, store)

/-! ### Search (`SELECT … WHERE email LIKE '%term%' ORDER BY email`) -/

/-- SQLite `LIKE` matching with explicit fuel (each step consumes a
pattern or subject character, so fuel `|p| + |s|` is never
exhausted). -/
def likeMatchAux : Nat → List Char → List Char → Bool
  | _, [], s => s.isEmpty
  | 0, _ :: _, _ => false
  | fuel + 1, p :: ps, s =>
      if p = '%' then
        likeMatchAux fuel ps s ||
          (match s with
           | [] => false
           | _ :: s' => likeMatchAux fuel (p :: ps) s')
      else
        match s with
        | [] => false
        | c :: s' =>
            (p == '_' || asciiUpper p == asciiUpper c) && likeMatchAux fuel ps s'

/-- SQLite `LIKE` pattern matching: `%` matches any character sequence,
`_` any single character, and other characters match ASCII
case-insensitively. -/
def likeMatch (p s : List Char) : Bool :=
  likeMatchAux (p.length + s.length) p s

/-- Byte-wise (codepoint) lexicographic order on character lists: the
`BINARY` collation sqlite applies in `ORDER BY email`. -/
def lexLe : List Char → List Char → Bool
  | [], _ => true
  | _ :: _, [] => false
  | a :: as, b :: bs =>
      a.toNat < b.toNat || (a.toNat == b.toNat && lexLe as bs)

/-- Insert into a list sorted by `le`. -/
def insertLe (le : α → α → Bool) (x : α) : List α → List α
  | [] => [x]
  | y :: ys => if le x y then x :: y :: ys else y :: insertLe le x ys

/-- Insertion sort by `le`. -/
def sortLe (le : α → α → Bool) : List α → List α
  | [] => []
  | x :: xs => insertLe le x (sortLe le xs)

/-- Row order produced by `ORDER BY email`. -/
def emailLe (a b : String × String) : Bool := lexLe a.1.data b.1.data

/-- `TOTPManager.search_emails(term)`: the rows whose email matches
`LIKE '%term%'`, ordered by email. -/
def searchEmails (store : Store) (term : String) : Store :=
  sortLe emailLe (store.filter
    (fun e => likeMatch ('%' :: (term.data ++ ['%'])) e.1.data))

/-- Case-insensitive substring containment, written from the spec's
words: some suffix of `hay` starts with `needle`, comparing ASCII
case-insensitively. -/
def containsCI : List Char → List Char → Bool
  | hay, needle =>
      (needle.map asciiUpper).isPrefixOf (hay.map asciiUpper) ||
        match hay with
        | [] => false
        | _ :: hay' => containsCI hay' needle

/-- The spec's `SearchByIdentitySubstring`: entries whose identity
contains the term as a case-insensitive substring, ordered
lexicographically by identity. -/
def specSearch (store : Store) (term : String) : Store :=
  sortLe emailLe (store.filter (fun e => containsCI e.1.data term.data))

/-- A term is wildcard-free when it contains neither of the SQL `LIKE`
metacharacters `%` and `_`. -/
def noWildcards (term : String) : Bool :=
  term.data.all (fun c => !(c == '%') && !(c == '_'))

/-! ### The `get` command of `main` -/

/-- Outcome of the `get` command, up to the point where interactive
selection would start. -/
inductive GetResult where
  | notFound
  | failure
  | code (email c : String)
  | candidates (l : Store)
  deriving DecidableEq, Repr

/-- The `get` branch of `main` at Unix time `t`: search; with no match
report not-found, with exactly one match generate a code from that
row's secret, with several matches hand the candidate list to the
interactive chooser without generating anything.  `failure` models the
uncaught exception when a lone matching row holds an undecodable
secret. -/
def getCmd (store : Store) (term : String) (t : Nat) : GetResult :=
  match searchEmails store term with
  | [] => .notFound
  | [e] =>
      match getTotp e.2 t with
      | some c => .code e.1 c
      | none => .failure
  | es => .candidates es

/-! ### Definitions written from the spec's words, for comparison -/

/-- The normalization claim C2 describes: strip all whitespace
characters (not only spaces) and upper-case. -/
def specStripWS (s : String) : String :=
  String.mk ((s.data.filter (fun c => ¬ c.isWhitespace)).map asciiUpper)

/-- Removing spaces (U+0020) and ASCII letter case: two raw secrets
with the same image differ only in spaces and letter case. -/
def spaceCaseCanon (s : String) : List Char :=
  (s.data.filter (fun c => c ≠ ' ')).map asciiUpper

/-- Dynamic truncation, written from the spec's words: the offset is
the low 4 bits of the digest's last byte, the 4 bytes from there are
read as a big-endian unsigned 32-bit integer, and the most significant
bit is cleared (reduction modulo `2^31`). -/
def specDynTrunc (d : List Nat) : Nat :=
  let o := d.getD 19 0 &&& 15
  (d.getD o 0 * 16777216 + d.getD (o + 1) 0 * 65536 +
   d.getD (o + 2) 0 * 256 + d.getD (o + 3) 0) % 2147483648

/-- Independent positional reading of a decimal digit string, used to
state what the formatted code is worth. -/
def decValue (l : List Char) : Nat :=
  l.foldl (fun a c => a * 10 + (c.toNat - 48)) 0

/-! ## Theorems -/

/-- Claim C1: generating a code from the Base32 secret
`GEZDGNBVGY3TQOJQGEZDGNBVGY3TQOJQ` (the ASCII key `12345678901234567890`)
returns `"287082"` at Unix time 59 and `"081804"` at Unix time
1111111109 — the RFC 6238 SHA-1 reference vectors. -/
theorem totp_known_answers :
    getTotp "GEZDGNBVGY3TQOJQGEZDGNBVGY3TQOJQ" 59 = some "287082" ∧
    getTotp "GEZDGNBVGY3TQOJQGEZDGNBVGY3TQOJQ" 1111111109 = some "081804" := by
  constructor <;> rfl

/-- Counterexample to claim C2 as stated: `"JBSW\tY3DP"` and
`"JBSWY3DP"` differ only in whitespace (a tab), yet they normalize
differently — `replace(' ', '')` strips only the space character
U+0020, not every whitespace character. -/
theorem normalize_whitespace_cex :
    specStripWS "JBSW\tY3DP" = specStripWS "JBSWY3DP" ∧
    normalizeSecret "JBSW\tY3DP" ≠ normalizeSecret "JBSWY3DP" := by
  decide

/-- Claim C2 as amended: normalization strips all space (U+0020)
characters and upper-cases, so two raw inputs that differ only in
spaces and ASCII letter case normalize to the same string (in
particular `"jbsw y3dp"` and `"JBSWY3DP"`, see the witness). -/
theorem normalize_space_case_insensitive (s1 s2 : String)
    (h : spaceCaseCanon s1 = spaceCaseCanon s2) :
    normalizeSecret s1 = normalizeSecret s2 := by
  unfold spaceCaseCanon at h
  unfold normalizeSecret
  rw [h]

/-- Witness for the amended claim C2 at the spec's own example. -/
theorem normalize_space_case_insensitive_witness :
    spaceCaseCanon "jbsw y3dp" = spaceCaseCanon "JBSWY3DP" ∧
    normalizeSecret "jbsw y3dp" = normalizeSecret "JBSWY3DP" :=
  ⟨by decide, normalize_space_case_insensitive "jbsw y3dp" "JBSWY3DP" (by decide)⟩

/-- Claim C3 fails on the code: the raw secret `" "` normalizes to the
empty string, which Base32-decodes to zero bytes, yet `add_secret`
accepts it — `pyotp.TOTP("")` decodes the empty secret to an empty key,
happily generates a code from it during the validation call, and the
empty secret is inserted into the store. -/
theorem add_accepts_empty_secret :
    normalizeSecret " " = "" ∧
    byteSecret "" = some [] ∧
    (getTotp "" 59).isSome = true ∧
    addSecret [] "user@example.com" " " =
      (.ok, [("user@example.com", "")]) := by
  refine ⟨rfl, rfl, rfl, rfl⟩

/-- Claim C5: adding an identity that is already present fails with the
already-exists error (the UNIQUE constraint raises
`sqlite3.IntegrityError`) and leaves the store — including the prior
secret — unchanged, for any raw secret that passes validation. -/
theorem add_existing_email_fails (store : Store) (email secret prior : String)
    (hmem : (email, prior) ∈ store)
    (hval : validSecret (normalizeSecret secret) = true) :
    addSecret store email secret = (.alreadyExists, store) := by
  have hany : store.any (fun e => e.1 == email) = true :=
    List.any_eq_true.mpr ⟨(email, prior), hmem, by simp⟩
  simp [addSecret, hval, hany]

/-- Witness for claim C5. -/
theorem add_existing_email_fails_witness :
    ("john@x.com", "OLDSECRET") ∈ ([("john@x.com", "OLDSECRET")] : Store) ∧
    validSecret (normalizeSecret "JBSWY3DPEHPK3PXP") = true ∧
    addSecret [("john@x.com", "OLDSECRET")] "john@x.com" "JBSWY3DPEHPK3PXP" =
      (.alreadyExists, [("john@x.com", "OLDSECRET")]) :=
  ⟨by decide, by rfl,
   add_existing_email_fails _ _ _ "OLDSECRET" (by decide) (by rfl)⟩

/-- Claim C6: updating an identity that is absent fails with the
not-found error (`rowcount == 0`) and leaves the store unchanged — in
particular no entry is created — for any raw secret that passes
validation. -/
theorem update_missing_email_fails (store : Store) (email secret : String)
    (habs : ∀ e ∈ store, e.1 ≠ email)
    (hval : validSecret (normalizeSecret secret) = true) :
    updateSecret store email secret = (.notFound, store) := by
  have hany : store.any (fun e => e.1 == email) = false := by
    rw [List.any_eq_false]
    intro e he
    simpa using habs e he
  simp [updateSecret, hval, hany]

/-- Witness for claim C6. -/
theorem update_missing_email_fails_witness :
    (∀ e ∈ ([("a@x.com", "S")] : Store), e.1 ≠ "b@y.com") ∧
    validSecret (normalizeSecret "JBSWY3DPEHPK3PXP") = true ∧
    updateSecret [("a@x.com", "S")] "b@y.com" "JBSWY3DPEHPK3PXP" =
      (.notFound, [("a@x.com", "S")]) :=
  ⟨by decide, by rfl,
   update_missing_email_fails _ _ _ (by decide) (by rfl)⟩

/-- Claim C8: code generation is a pure function of the decoded key
bytes and the 30-second window — any two secrets decoding to the same
key, queried at times in the same window, yield identical codes. -/
theorem totp_window_deterministic (s1 s2 : String) (k : List Nat)
    (t1 t2 : Nat) (h1 : byteSecret s1 = some k) (h2 : byteSecret s2 = some k)
    (hw : t1 / 30 = t2 / 30) :
    getTotp s1 t1 = getTotp s2 t2 := by
  simp [getTotp, h1, h2, hw]

/-- Witness for claim C8: `MZXW6===` and its unpadded spelling `MZXW6`
both decode to the key `"foo"`, and times 0 and 29 share a window. -/
theorem totp_window_deterministic_witness :
    byteSecret "MZXW6===" = some [102, 111, 111] ∧
    byteSecret "MZXW6" = some [102, 111, 111] ∧
    (0 : Nat) / 30 = 29 / 30 ∧
    getTotp "MZXW6===" 0 = getTotp "MZXW6" 29 :=
  ⟨by rfl, by rfl, by rfl,
   totp_window_deterministic _ _ [102, 111, 111] _ _ (by rfl) (by rfl) (by rfl)⟩

/-! ### Helper lemmas about the store and search -/

theorem mem_insertLe {le : α → α → Bool} {x y : α} {l : List α} :
    y ∈ insertLe le x l ↔ y = x ∨ y ∈ l := by
  induction l with
  | nil => simp [insertLe]
  | cons h t ih =>
      by_cases hle : le x h
      all_goals simp [insertLe, hle, ih]
      tauto

theorem mem_sortLe {le : α → α → Bool} {y : α} {l : List α} :
    y ∈ sortLe le l ↔ y ∈ l := by
  induction l with
  | nil => simp [sortLe]
  | cons h t ih => simp [sortLe, mem_insertLe, ih]

theorem mem_searchEmails {store : Store} {term : String} {e : String × String}
    (h : e ∈ searchEmails store term) : e ∈ store := by
  unfold searchEmails at h
  exact (List.mem_filter.mp (mem_sortLe.mp h)).1

theorem filter_key_length (store : Store) (email : String) :
    store.length = (store.filter (fun e => e.1 == email)).length +
      (store.filter (fun e => !(e.1 == email))).length := by
  induction store with
  | nil => rfl
  | cons hd tl ih =>
      by_cases h : hd.1 = email <;>
        simp [List.filter_cons, h, ih] <;> omega

theorem filter_key_one (store : Store) (email s : String)
    (hnd : (store.map Prod.fst).Nodup) ( hmem : (email, s) ∈ store) :
    (store.filter (fun e => e.1 == email)).length = 1 := by
  induction store with
  | nil => cases hmem
  | cons hd tl ih =>
      rw [List.map_cons, List.nodup_cons] at hnd
      rcases List.mem_cons.mp hmem with heq | htl
      · have htl0 : tl.filter (fun e => e.1 == email) = [] := by
          rw [List.filter_eq_nil_iff]
          intro a ha hpa
          exact hnd.1 (by
            rw [show email = hd.1 by rw [← heq]] at hpa
            exact List.mem_map.mpr ⟨a, ha, by simpa using hpa⟩)
        simp [List.filter_cons, ← heq, htl0]
      · have hne : (hd.1 == email) = false := by
          simp only [beq_eq_false_iff_ne, ne_eq]
          intro h
          exact hnd.1 (h ▸ List.mem_map.mpr ⟨(email, s), htl, rfl⟩)
        simp [List.filter_cons, hne, ih hnd.2 htl]

/-- Claim C10: deleting a present identity removes exactly that one
entry — the outcome is success, the store shrinks by one row, and a row
survives exactly when it was already stored and belongs to a different
identity (so every other identity's secret is untouched). -/
theorem delete_removes_exactly_one (store : Store) (email s : String)
    (hnd : (store.map Prod.fst).Nodup) (hmem : (email, s) ∈ store) :
    (deleteSecret store email).1 = true ∧
    (deleteSecret store email).2.length + 1 = store.length ∧
    (∀ e, e ∈ (deleteSecret store email).2 ↔ e ∈ store ∧ e.1 ≠ email) := by
  have hany : store.any (fun e => e.1 == email) = true :=
    List.any_eq_true.mpr ⟨(email, s), hmem, by simp⟩
  have hdel : deleteSecret store email =
      (true, store.filter (fun e => !(e.1 == email))) := by
    simp [deleteSecret, hany]
  rw [hdel]
  refine ⟨rfl, ?_, ?_⟩
  · have h1 := filter_key_length store email
    have h2 := filter_key_one store email s hnd hmem
    simp only at h1 h2 ⊢
    omega
  · intro e
    simp [List.mem_filter]

/-- Witness for claim C10. -/
theorem delete_removes_exactly_one_witness :
    (((([("a", "S"), ("b", "T")] : Store)).map Prod.fst).Nodup ∧
      ("a", "S") ∈ ([("a", "S"), ("b", "T")] : Store)) ∧
    (deleteSecret [("a", "S"), ("b", "T")] "a").1 = true ∧
    (deleteSecret [("a", "S"), ("b", "T")] "a").2.length + 1 =
      ([("a", "S"), ("b", "T")] : Store).length ∧
    (∀ e, e ∈ (deleteSecret [("a", "S"), ("b", "T")] "a").2 ↔
      e ∈ ([("a", "S"), ("b", "T")] : Store) ∧ e.1 ≠ "a") :=
  ⟨⟨by decide, by decide⟩,
   delete_removes_exactly_one [("a", "S"), ("b", "T")] "a" "S"
     (by decide) (by decide)⟩

/-- Claim C9: the `get` command generates a code exactly when the
search yields exactly one match, and then from that match's secret;
with zero matches it reports not-found, and with two or more matches it
returns the candidate list without generating any code. -/
theorem get_cmd_match_cases (store : Store) (term : String) (t : Nat)
    (hv : ∀ e ∈ store, validSecret e.2 = true) :
    (searchEmails store term = [] → getCmd store term t = .notFound) ∧
    (∀ e, searchEmails store term = [e] →
      ∃ c, getTotp e.2 t = some c ∧ getCmd store term t = .code e.1 c) ∧
    (∀ e1 e2 rest, searchEmails store term = e1 :: e2 :: rest →
      getCmd store term t = .candidates (e1 :: e2 :: rest)) := by
  refine ⟨fun h => by simp [getCmd, h], fun e he => ?_, fun e1 e2 rest h => by
    simp [getCmd, h]⟩
  have hmem : e ∈ store := mem_searchEmails (he ▸ List.mem_singleton.mpr rfl)
  have hval := hv e hmem
  obtain ⟨k, hk⟩ : ∃ k, byteSecret e.2 = some k := by
    cases h' : byteSecret e.2 with
    | none => rw [validSecret, h'] at hval; cases hval
    | some k => exact ⟨k, rfl⟩
  exact ⟨generateOtp k (t / 30), by simp [getTotp, hk],
    by simp [getCmd, he, getTotp, hk]⟩

/-- Witness for claim C9: a store with one valid entry matched by the
term `"a"`. -/
theorem get_cmd_match_cases_witness :
    (∀ e ∈ ([("a@x", "JBSWY3DPEHPK3PXP")] : Store), validSecret e.2 = true) ∧
    (∃ c, getTotp "JBSWY3DPEHPK3PXP" 0 = some c ∧
      getCmd [("a@x", "JBSWY3DPEHPK3PXP")] "a" 0 = .code "a@x" c) :=
  ⟨by decide,
   (get_cmd_match_cases [("a@x", "JBSWY3DPEHPK3PXP")] "a" 0 (by decide)).2.1
     ("a@x", "JBSWY3DPEHPK3PXP") (by rfl)⟩

/-! ### `LIKE '%term%'` versus case-insensitive substring containment -/

theorem likeAux_fuel (fuel₁ : Nat) :
    ∀ (fuel₂ : Nat) (p s : List Char), p.length + s.length ≤ fuel₁ →
      p.length + s.length ≤ fuel₂ →
      likeMatchAux fuel₁ p s = likeMatchAux fuel₂ p s := by
  induction fuel₁ with
  | zero =>
      intro fuel₂ p s h₁ _
      cases p with
      | nil => cases fuel₂ <;> rfl
      | cons p ps => simp at h₁
  | succ f ih =>
      intro fuel₂ p s h₁ h₂
      cases p with
      | nil => cases fuel₂ <;> rfl
      | cons p ps =>
          cases fuel₂ with
          | zero => simp at h₂
          | succ f₂ =>
              simp only [List.length_cons] at h₁ h₂
              simp only [likeMatchAux]
              by_cases hp : p = '%'
              · cases s with
                | nil =>
                    simp only [hp, if_pos]
                    rw [ih f₂ ps [] (by simp; omega) (by simp; omega)]
                | cons c s' =>
                    simp only [hp, if_pos]
                    rw [ih f₂ ps (c :: s') (by simp at *; omega)
                          (by simp at *; omega),
                        ih f₂ ('%' :: ps) s' (by simp at *; omega)
                          (by simp at *; omega)]
              · cases s with
                | nil => simp [hp]
                | cons c s' =>
                    simp only [hp, if_neg, ite_false]
                    rw [ih f₂ ps s' (by simp at *; omega) (by simp at *; omega)]

theorem likeMatch_eq_fuel (f : Nat) (p s : List Char)
    (h : p.length + s.length ≤ f) : likeMatchAux f p s = likeMatch p s :=
  likeAux_fuel f (p.length + s.length) p s h (Nat.le_refl _)

theorem likeAux_succ_unfold (f : Nat) (p : Char) (ps s : List Char) :
    likeMatchAux (f + 1) (p :: ps) s =
      (if p = '%' then
        likeMatchAux f ps s ||
          (match s with
           | [] => false
           | _ :: s' => likeMatchAux f (p :: ps) s')
      else
        match s with
        | [] => false
        | c :: s' =>
            (p == '_' || asciiUpper p == asciiUpper c) && likeMatchAux f ps s') :=
  rfl

theorem likeMatch_percent_nil (ps : List Char) :
    likeMatch ('%' :: ps) [] = likeMatch ps [] := by
  have h0 : likeMatch ('%' :: ps) [] =
      likeMatchAux (ps.length + 1) ('%' :: ps) [] := by
    unfold likeMatch
    exact likeAux_fuel (('%' :: ps).length + ([] : List Char).length)
      (ps.length + 1) ('%' :: ps) []
      (by simp only [List.length_cons, List.length_nil]; omega)
      (by simp only [List.length_cons, List.length_nil]; omega)
  rw [h0, likeAux_succ_unfold, if_pos rfl,
      likeMatch_eq_fuel ps.length ps []
        (by simp only [List.length_nil]; omega)]
  simp

theorem likeMatch_percent_cons (ps : List Char) (c : Char) (s' : List Char) :
    likeMatch ('%' :: ps) (c :: s') =
      (likeMatch ps (c :: s') || likeMatch ('%' :: ps) s') := by
  have h0 : likeMatch ('%' :: ps) (c :: s') =
      likeMatchAux (ps.length + s'.length + 2 + 1) ('%' :: ps) (c :: s') := by
    unfold likeMatch
    exact likeAux_fuel (('%' :: ps).length + (c :: s').length)
        (ps.length + s'.length + 2 + 1) ('%' :: ps) (c :: s')
        (by simp only [List.length_cons]; omega)
        (by simp only [List.length_cons]; omega)
  rw [h0, likeAux_succ_unfold, if_pos rfl]
  show (likeMatchAux (ps.length + s'.length + 2) ps (c :: s') ||
    likeMatchAux (ps.length + s'.length + 2) ('%' :: ps) s') = _
  rw [likeMatch_eq_fuel _ ps (c :: s')
        (by simp only [List.length_cons]; omega),
      likeMatch_eq_fuel _ ('%' :: ps) s'
        (by simp only [List.length_cons]; omega)]

theorem likeMatch_lit_nil {p : Char} (hp : p ≠ '%') (ps : List Char) :
    likeMatch (p :: ps) [] = false := by
  have h0 : likeMatch (p :: ps) [] =
      likeMatchAux (ps.length + 1) (p :: ps) [] := by
    unfold likeMatch
    exact likeAux_fuel ((p :: ps).length + ([] : List Char).length)
      (ps.length + 1) (p :: ps) []
      (by simp only [List.length_cons, List.length_nil]; omega)
      (by simp only [List.length_cons, List.length_nil]; omega)
  rw [h0, likeAux_succ_unfold, if_neg hp]

theorem likeMatch_lit_cons {p : Char} (hp : p ≠ '%') (ps : List Char)
    (c : Char) (s' : List Char) :
    likeMatch (p :: ps) (c :: s') =
      ((p == '_' || asciiUpper p == asciiUpper c) && likeMatch ps s') := by
  have h0 : likeMatch (p :: ps) (c :: s') =
      likeMatchAux (ps.length + s'.length + 1 + 1) (p :: ps) (c :: s') := by
    unfold likeMatch
    exact likeAux_fuel ((p :: ps).length + (c :: s').length)
        (ps.length + s'.length + 1 + 1) (p :: ps) (c :: s')
        (by simp only [List.length_cons]; omega)
        (by simp only [List.length_cons]; omega)
  rw [h0, likeAux_succ_unfold, if_neg hp]
  show ((p == '_' || asciiUpper p == asciiUpper c) &&
    likeMatchAux (ps.length + s'.length + 1) ps s') = _
  rw [likeMatch_eq_fuel _ ps s' (by omega)]

theorem likeMatch_percent_always (s : List Char) : likeMatch ['%'] s = true := by
  induction s with
  | nil => rfl
  | cons c s' ih => rw [likeMatch_percent_cons]; simp [ih]

theorem likeMatch_append_percent (t : List Char)
    (ht : ∀ c ∈ t, c ≠ '%' ∧ c ≠ '_') :
    ∀ s : List Char,
      likeMatch (t ++ ['%']) s =
        (t.map asciiUpper).isPrefixOf (s.map asciiUpper) := by
  induction t with
  | nil =>
      intro s
      simp [likeMatch_percent_always s, List.isPrefixOf]
  | cons c t' ih =>
      intro s
      have hc := ht c (List.mem_cons_self c t')
      have ht' : ∀ a ∈ t', a ≠ '%' ∧ a ≠ '_' :=
        fun a ha => ht a (List.mem_cons_of_mem c ha)
      cases s with
      | nil =>
          rw [List.cons_append, likeMatch_lit_nil hc.1]
          simp [List.isPrefixOf]
      | cons c₀ s' =>
          rw [List.cons_append, likeMatch_lit_cons hc.1, ih ht' s']
          have hu : (c == '_') = false := by simp [hc.2]
          simp [List.isPrefixOf, hu]

theorem contains_nil_needle (s : List Char) : containsCI s [] = true := by
  cases s <;> simp [containsCI, List.isPrefixOf]

theorem likeMatch_contains (t : List Char)
    (ht : ∀ c ∈ t, c ≠ '%' ∧ c ≠ '_') :
    ∀ s : List Char, likeMatch ('%' :: (t ++ ['%'])) s = containsCI s t := by
  intro s
  induction s with
  | nil =>
      rw [likeMatch_percent_nil, likeMatch_append_percent t ht]
      simp [containsCI]
  | cons c s' ih =>
      rw [likeMatch_percent_cons, likeMatch_append_percent t ht, ih]
      simp [containsCI]

/-! ### Sortedness of the search output -/

theorem lexLe_total (a : List Char) : ∀ b, lexLe a b = true ∨ lexLe b a = true := by
  induction a with
  | nil => intro b; left; rfl
  | cons x xs ih =>
      intro b
      cases b with
      | nil => right; rfl
      | cons y ys =>
          rcases Nat.lt_trichotomy x.toNat y.toNat with h | h | h
          · left; simp [lexLe, h]
          · rcases ih ys with h' | h'
            · left; simp [lexLe, h, h']
            · right; simp [lexLe, h.symm, h']
          · right; simp [lexLe, h]

theorem lexLe_trans (a : List Char) :
    ∀ b c, lexLe a b = true → lexLe b c = true → lexLe a c = true := by
  induction a with
  | nil => intro b c _ _; rfl
  | cons x xs ih =>
      intro b c h1 h2
      cases b with
      | nil => simp [lexLe] at h1
      | cons y ys =>
          cases c with
          | nil => simp [lexLe] at h2
          | cons z zs =>
              simp only [lexLe, Bool.or_eq_true, Bool.and_eq_true,
                decide_eq_true_eq, beq_iff_eq] at h1 h2 ⊢
              rcases h1 with h1 | ⟨h1e, h1r⟩
              · rcases h2 with h2 | ⟨h2e, h2r⟩
                · left; omega
                · left; omega
              · rcases h2 with h2 | ⟨h2e, h2r⟩
                · left; omega
                · right; exact ⟨by omega, ih ys zs h1r h2r⟩

theorem pairwise_insertLe (le : α → α → Bool)
    (htrans : ∀ a b c, le a b = true → le b c = true → le a c = true)
    (htot : ∀ a b, le a b = true ∨ le b a = true)
    (x : α) (l : List α) (hl : l.Pairwise (fun a b => le a b = true)) :
    (insertLe le x l).Pairwise (fun a b => le a b = true) := by
  induction l with
  | nil => simp [insertLe]
  | cons y ys ih =>
      rw [List.pairwise_cons] at hl
      by_cases hle : le x y = true
      · simp only [insertLe, hle, if_true]
        rw [List.pairwise_cons]
        refine ⟨?_, List.pairwise_cons.mpr hl⟩
        intro z hz
        rcases List.mem_cons.mp hz with rfl | hz'
        · exact hle
        · exact htrans x y z hle (hl.1 z hz')
      · have hle' : le x y = false := by
          revert hle; cases le x y <;> simp
        simp only [insertLe, hle', Bool.false_eq_true, if_false]
        rw [List.pairwise_cons]
        constructor
        · intro z hz
          rcases mem_insertLe.mp hz with heq | hz'
          · rw [heq]
            rcases htot x y with h | h
            · exact absurd h hle
            · exact h
          · exact hl.1 z hz'
        · exact ih hl.2

theorem sortLe_pairwise (le : α → α → Bool)
    (htrans : ∀ a b c, le a b = true → le b c = true → le a c = true)
    (htot : ∀ a b, le a b = true ∨ le b a = true) (l : List α) :
    (sortLe le l).Pairwise (fun a b => le a b = true) := by
  induction l with
  | nil => simp [sortLe]
  | cons x xs ih => exact pairwise_insertLe le htrans htot x _ ih

theorem emailLe_trans (a b c : String × String)
    (h1 : emailLe a b = true) (h2 : emailLe b c = true) : emailLe a c = true :=
  lexLe_trans a.1.data b.1.data c.1.data h1 h2

theorem emailLe_total (a b : String × String) :
    emailLe a b = true ∨ emailLe b a = true :=
  lexLe_total a.1.data b.1.data

/-- Counterexample to claim C4 as stated: in a store holding the lone
identity `"ab"`, searching the term `"%"` returns that entry even
though `"%"` is not a substring of `"ab"` — the term is spliced into
the SQL `LIKE` pattern, where `%` is a wildcard. -/
theorem search_percent_wildcard_cex :
    searchEmails [("ab", "S")] "%" = [("ab", "S")] ∧
    specSearch [("ab", "S")] "%" = [] := by
  constructor <;> rfl

/-- Claim C4 as amended: for every search term free of the SQL `LIKE`
wildcards `%` and `_`, search returns exactly the entries whose
identity contains the term as an (ASCII) case-insensitive substring,
lexicographically ordered by identity, and the empty term returns
every stored entry (in that order). -/
theorem search_matches_ci_substring (store : Store) (term : String)
    (hterm : noWildcards term = true) :
    searchEmails store term = specSearch store term ∧
    List.Pairwise (fun a b => emailLe a b = true) (searchEmails store term) ∧
    searchEmails store "" = sortLe emailLe store := by
  have ht : ∀ c ∈ term.data, c ≠ '%' ∧ c ≠ '_' := by
    intro c hc
    have h := List.all_eq_true.mp hterm c hc
    simp only [Bool.and_eq_true, Bool.not_eq_true', beq_eq_false_iff_ne] at h
    exact h
  refine ⟨?_, ?_, ?_⟩
  · unfold searchEmails specSearch
    congr 1
    exact List.filter_congr fun e _ => likeMatch_contains term.data ht e.1.data
  · exact sortLe_pairwise emailLe emailLe_trans emailLe_total _
  · unfold searchEmails
    have hall : ∀ e ∈ store, likeMatch ('%' :: ("".data ++ ['%'])) e.1.data = true :=
      fun e _ => by
        rw [likeMatch_contains [] (by simp) e.1.data]
        exact contains_nil_needle e.1.data
    rw [List.filter_eq_self.mpr hall]

/-- Witness for the amended claim C4: a mixed-case store searched with
the wildcard-free term `"X.COM"`. -/
theorem search_matches_ci_substring_witness :
    noWildcards "X.COM" = true ∧
    searchEmails [("bob@x.com", "S1"), ("alice@y.com", "S2")] "X.COM" =
      specSearch [("bob@x.com", "S1"), ("alice@y.com", "S2")] "X.COM" :=
  ⟨by decide,
   (search_matches_ci_substring [("bob@x.com", "S1"), ("alice@y.com", "S2")]
     "X.COM" (by decide)).1⟩

/-! ### Byte bounds and bit-level arithmetic for claim C7 -/

theorem be4_lt {w b : Nat} (hb : b ∈ be4 w) : b < 256 := by
  simp only [be4, List.mem_cons, List.not_mem_nil, or_false] at hb
  rcases hb with rfl | rfl | rfl | rfl <;> exact Nat.mod_lt _ (by omega)

theorem sha1_bytes_lt (msg : List Nat) : ∀ b ∈ sha1 msg, b < 256 := by
  intro b hb
  unfold sha1 at hb
  simp only [List.mem_append] at hb
  rcases hb with (((h | h) | h) | h) | h <;> exact be4_lt h

theorem getD_lt {d : List Nat} (hd : ∀ b ∈ d, b < 256) (i : Nat) :
    d.getD i 0 < 256 := by
  induction d generalizing i with
  | nil => simp [List.getD]
  | cons x xs ih =>
      cases i with
      | zero => simpa using hd x (by simp)
      | succ i =>
          simp only [List.getD_cons_succ]
          exact ih (fun b hb => hd b (by simp [hb])) i

theorem lor_eq_add (k a : Nat) {b : Nat} (hb : b < 2 ^ k) :
    (a * 2 ^ k) ||| b = a * 2 ^ k + b := by
  rw [Nat.mul_comm a]
  exact (Nat.mul_add_lt_is_or hb a).symm

theorem truncate_or_eq (b0 b1 b2 b3 : Nat) (_h0 : b0 < 256) (h1 : b1 < 256)
    (h2 : b2 < 256) (h3 : b3 < 256) :
    (((b0 &&& 127) <<< 24) ||| ((b1 &&& 255) <<< 16) |||
     ((b2 &&& 255) <<< 8) ||| (b3 &&& 255)) =
    (b0 * 16777216 + b1 * 65536 + b2 * 256 + b3) % 2147483648 := by
  have e0 : b0 &&& 127 = b0 % 128 := by
    have h : (127 : Nat) = 2 ^ 7 - 1 := by norm_num
    rw [h, Nat.and_pow_two_sub_one_eq_mod]
  have e1 : b1 &&& 255 = b1 := by
    have h : (255 : Nat) = 2 ^ 8 - 1 := by norm_num
    rw [h, Nat.and_pow_two_sub_one_eq_mod, Nat.mod_eq_of_lt h1]
  have e2 : b2 &&& 255 = b2 := by
    have h : (255 : Nat) = 2 ^ 8 - 1 := by norm_num
    rw [h, Nat.and_pow_two_sub_one_eq_mod, Nat.mod_eq_of_lt h2]
  have e3 : b3 &&& 255 = b3 := by
    have h : (255 : Nat) = 2 ^ 8 - 1 := by norm_num
    rw [h, Nat.and_pow_two_sub_one_eq_mod, Nat.mod_eq_of_lt h3]
  rw [e0, e1, e2, e3, Nat.shiftLeft_eq, Nat.shiftLeft_eq, Nat.shiftLeft_eq]
  have d1 : ((b0 % 128) * 2 ^ 24) ||| (b1 * 2 ^ 16) =
      (b0 % 128) * 2 ^ 24 + b1 * 2 ^ 16 :=
    lor_eq_add 24 _ (by norm_num; omega)
  rw [d1]
  have f1 : (b0 % 128) * 2 ^ 24 + b1 * 2 ^ 16 =
      ((b0 % 128) * 256 + b1) * 2 ^ 16 := by ring
  rw [f1]
  have d2 : (((b0 % 128) * 256 + b1) * 2 ^ 16) ||| (b2 * 2 ^ 8) =
      ((b0 % 128) * 256 + b1) * 2 ^ 16 + b2 * 2 ^ 8 :=
    lor_eq_add 16 _ (by norm_num; omega)
  rw [d2]
  have f2 : ((b0 % 128) * 256 + b1) * 2 ^ 16 + b2 * 2 ^ 8 =
      (((b0 % 128) * 256 + b1) * 256 + b2) * 2 ^ 8 := by ring
  rw [f2]
  have d3 : ((((b0 % 128) * 256 + b1) * 256 + b2) * 2 ^ 8) ||| b3 =
      (((b0 % 128) * 256 + b1) * 256 + b2) * 2 ^ 8 + b3 :=
    lor_eq_add 8 _ (by omega)
  rw [d3]
  norm_num
  omega

/-! ### The decimal formatting for claim C7 -/

theorem digitChar_toNat {d : Nat} (h : d < 10) : (digitChar d).toNat = 48 + d := by
  interval_cases d <;> rfl

theorem digitChar_isDigit {d : Nat} (h : d < 10) : (digitChar d).isDigit = true := by
  interval_cases d <;> rfl

theorem decValue_append_digit (l : List Char) (c : Char) :
    decValue (l ++ [c]) = decValue l * 10 + (c.toNat - 48) := by
  simp [decValue, List.foldl_append]

theorem decCharsAux_spec (fuel : Nat) :
    ∀ n, n ≤ fuel →
      decValue (decCharsAux fuel n) = n ∧
      (∀ c ∈ decCharsAux fuel n, c.isDigit = true) ∧
      (∀ k, 1 ≤ k → n < 10 ^ k → (decCharsAux fuel n).length ≤ k) := by
  induction fuel with
  | zero =>
      intro n hn
      have hn0 : n = 0 := by omega
      subst hn0
      refine ⟨by simp [decCharsAux, decValue, digitChar], ?_, ?_⟩
      · intro c hc
        simp only [decCharsAux, List.mem_singleton] at hc
        subst hc
        exact digitChar_isDigit (by omega)
      · intro k hk _
        simp only [decCharsAux, List.length_singleton]
        omega
  | succ f ih =>
      intro n hn
      by_cases hlt : n < 10
      · refine ⟨?_, ?_, ?_⟩
        · simp [decCharsAux, hlt, decValue, digitChar_toNat hlt]
        · intro c hc
          simp only [decCharsAux, hlt, if_true, List.mem_singleton] at hc
          subst hc
          exact digitChar_isDigit hlt
        · intro k hk _
          simp only [decCharsAux, hlt, if_true, List.length_singleton]
          omega
      · have hrec : n / 10 ≤ f := by omega
        obtain ⟨ihv, ihd, ihl⟩ := ih (n / 10) hrec
        have hunf : decCharsAux (f + 1) n =
            decCharsAux f (n / 10) ++ [digitChar (n % 10)] := by
          simp [decCharsAux, hlt]
        refine ⟨?_, ?_, ?_⟩
        · rw [hunf, decValue_append_digit, ihv,
              digitChar_toNat (Nat.mod_lt _ (by omega))]
          omega
        · intro c hc
          rw [hunf] at hc
          rcases List.mem_append.mp hc with h | h
          · exact ihd c h
          · rw [List.mem_singleton.mp h]
            exact digitChar_isDigit (Nat.mod_lt _ (by omega))
        · intro k hk hnk
          have hk2 : 2 ≤ k := by
            by_contra hcon
            have hk1 : k = 1 := by omega
            subst hk1
            simp at hnk
            omega
          have hsplit : (10 : Nat) ^ k = 10 ^ (k - 1) * 10 := by
            rw [← Nat.pow_succ]
            congr 1
            omega
          have hdiv : n / 10 < 10 ^ (k - 1) := by
            rw [Nat.div_lt_iff_lt_mul (by omega)]
            omega
          have := ihl (k - 1) (by omega) hdiv
          rw [hunf]
          simp only [List.length_append, List.length_singleton]
          omega

theorem decChars_spec (n : Nat) :
    decValue (decChars n) = n ∧
    (∀ c ∈ decChars n, c.isDigit = true) ∧
    (∀ k, 1 ≤ k → n < 10 ^ k → (decChars n).length ≤ k) :=
  decCharsAux_spec n n (Nat.le_refl n)

theorem decValue_replicate_zero (m : Nat) (l : List Char) :
    decValue (List.replicate m '0' ++ l) = decValue l := by
  induction m with
  | zero => simp
  | succ k ih =>
      rw [List.replicate_succ, List.cons_append]
      show decValue (List.replicate k '0' ++ l) = decValue l
      exact ih

/-- Claim C7: for every non-empty key and every time, the generated
code is a string of exactly 6 decimal digits whose value is the
dynamically truncated HMAC-SHA1 of the time window, taken modulo
1,000,000 (zero-padding accounts for the missing leading digits). -/
theorem generated_code_format (key : List Nat) (t : Nat) (_hkey : key ≠ []) :
    (generateOtp key (t / 30)).length = 6 ∧
    (∀ c ∈ (generateOtp key (t / 30)).data, c.isDigit = true) ∧
    decValue (generateOtp key (t / 30)).data =
      specDynTrunc (hmacSha1 key (intToBytestring (t / 30))) % 1000000 := by
  have hd : ∀ b ∈ hmacSha1 key (intToBytestring (t / 30)), b < 256 :=
    sha1_bytes_lt _
  set d := hmacSha1 key (intToBytestring (t / 30)) with hdef
  have hcode : (((d.getD (d.getD 19 0 &&& 15) 0 &&& 127) <<< 24) |||
      ((d.getD ((d.getD 19 0 &&& 15) + 1) 0 &&& 255) <<< 16) |||
      ((d.getD ((d.getD 19 0 &&& 15) + 2) 0 &&& 255) <<< 8) |||
      (d.getD ((d.getD 19 0 &&& 15) + 3) 0 &&& 255)) = specDynTrunc d := by
    rw [truncate_or_eq _ _ _ _ (getD_lt hd _) (getD_lt hd _) (getD_lt hd _)
        (getD_lt hd _)]
    rfl
  have hgen : generateOtp key (t / 30) =
      String.mk (zfill6 (decChars (specDynTrunc d % 1000000))) := by
    simp only [generateOtp]
    rw [← hdef, hcode]
  obtain ⟨hval, hdig, hlen⟩ := decChars_spec (specDynTrunc d % 1000000)
  have hlen6 : (decChars (specDynTrunc d % 1000000)).length ≤ 6 :=
    hlen 6 (by omega) (by
      have : specDynTrunc d % 1000000 < 1000000 := Nat.mod_lt _ (by omega)
      norm_num
      omega)
  rw [hgen]
  refine ⟨?_, ?_, ?_⟩
  · show (zfill6 (decChars (specDynTrunc d % 1000000))).length = 6
    simp only [zfill6, List.length_append, List.length_replicate]
    omega
  · intro c hc
    simp only [zfill6] at hc
    rcases List.mem_append.mp hc with h | h
    · rw [List.eq_of_mem_replicate h]
      rfl
    · exact hdig c h
  · show decValue (zfill6 (decChars (specDynTrunc d % 1000000))) = _
    rw [zfill6, decValue_replicate_zero, hval]

/-- Witness for claim C7 at the key byte `[1]` and time 59. -/
theorem generated_code_format_witness :
    ([1] : List Nat) ≠ [] ∧
    (generateOtp [1] (59 / 30)).length = 6 ∧
    (∀ c ∈ (generateOtp [1] (59 / 30)).data, c.isDigit = true) ∧
    decValue (generateOtp [1] (59 / 30)).data =
      specDynTrunc (hmacSha1 [1] (intToBytestring (59 / 30))) % 1000000 :=
  ⟨by decide, generated_code_format [1] 59 (by decide)⟩

end TotpManager
